import Mathlib

/-!
Verification development for the shell-completion library `click_completion`
(files `click_completion/core.py` and `click_completion/__init__.py`).

The Python code is shallowly embedded: pure functions become Lean functions on
`String` / `List Char`; the lenient argument parser of the external CLI
framework (the `make_context(..., resilient_parsing=True)` interface consumed
read-only by the code, design §6) is modelled as an explicit total function;
generators become lists; exceptions become explicit outcome constructors.
All definitions are executable.
-/

set_option maxHeartbeats 1000000

/-- Generic list concatenation of mapped lists (embedding of the repeated
`choices.append(...)` accumulation loops and of Python list comprehensions). -/
def concatMap (f : α → List β) : List α → List β
  | [] => []
  | a :: l => f a ++ concatMap f l

/-- Embedding of `click_completion.core.startswith` /
`click_completion.startswith`: `string.startswith(incomplete)`. -/
def startswith (string incomplete : String) : Bool :=
  incomplete.data.isPrefixOf string.data

/-- `s.endswith(suffix)` on strings, via character lists. -/
def strEndsWith (s suffixStr : String) : Bool :=
  suffixStr.data.isSuffixOf s.data

/-- The single-quote character (ASCII 39). -/
def qc : Char := Char.ofNat 39

/-- The double-quote character. -/
def dq : Char := '"'

/-- The backslash escape character (`shlex.escape` defaults to a backslash). -/
def escapeChar : Char := '\\'

/-- The backquote character (ASCII 96), replaced by the Z-shell escaper. -/
def backquoteChar : Char := Char.ofNat 96

/-- Membership in `shlex.whitespace` (the default `' \t\r\n'`). -/
def isWhitespaceChar (c : Char) : Bool :=
  c == ' ' || c == '\t' || c == '\r' || c == '\n'

/-- Lexer state of `shlex.shlex` in POSIX mode with `whitespace_split = True`
and `commenters = ''` (the configuration built by `split_args`):
`ws` is state `' '`, `word` is state `'a'`, `quoteSt q` is an open quote
`q ∈ {single, double}`, and `escapeSt fq` is a pending backslash whose
`escapedstate` is `'a'` (`fq = none`) or an enclosing quote (`fq = some q`). -/
inductive LexState where
  | ws
  | word
  | quoteSt (q : Char)
  | escapeSt (fq : Option Char)
deriving DecidableEq, Repr

/-- One-pass embedding of the `shlex` token stream as consumed by
`split_args`: repeated `read_token` calls fused into a single structural
recursion over the input characters.  Returns the list of tokens produced
before the stream ended, paired with the value of the internal pending token
`lex.token` at the moment a `ValueError` was raised (unterminated quote or
trailing escape) — `""` when iteration ended cleanly with `StopIteration`. -/
def lexAll (input : List Char) (st : LexState) (token : List Char)
    (quoted : Bool) (acc : List String) : List String × String :=
  match input with
  | [] =>
    match st with
    | .ws => (if token ≠ [] ∨ quoted then acc ++ [String.mk token] else acc, "")
    | .word => (if token ≠ [] ∨ quoted then acc ++ [String.mk token] else acc, "")
    | .quoteSt _ => (acc, String.mk token)
    | .escapeSt _ => (acc, String.mk token)
  | c :: rest =>
    match st with
    | .ws =>
      if isWhitespaceChar c then
        if token ≠ [] ∨ quoted then lexAll rest .ws [] false (acc ++ [String.mk token])
        else lexAll rest .ws token quoted acc
      else if c == escapeChar then lexAll rest (.escapeSt none) token quoted acc
      else if c == qc || c == dq then lexAll rest (.quoteSt c) token quoted acc
      else lexAll rest .word (token ++ [c]) quoted acc
    | .word =>
      if isWhitespaceChar c then
        if token ≠ [] ∨ quoted then lexAll rest .ws [] false (acc ++ [String.mk token])
        else lexAll rest .ws token quoted acc
      else if c == qc || c == dq then lexAll rest (.quoteSt c) token quoted acc
      else if c == escapeChar then lexAll rest (.escapeSt none) token quoted acc
      else lexAll rest .word (token ++ [c]) quoted acc
    | .quoteSt q =>
      if c == q then lexAll rest .word token true acc
      else if q == dq && c == escapeChar then lexAll rest (.escapeSt (some q)) token true acc
      else lexAll rest (.quoteSt q) (token ++ [c]) true acc
    | .escapeSt fq =>
      match fq with
      | none => lexAll rest .word (token ++ [c]) quoted acc
      | some q =>
        if c ≠ escapeChar ∧ c ≠ q then lexAll rest (.quoteSt q) (token ++ [escapeChar, c]) quoted acc
        else lexAll rest (.quoteSt q) (token ++ [c]) quoted acc

/-- Embedding of `click_completion.split_args` (`__init__.py`): iterate the
lexer, swallow the `ValueError` raised on malformed tails, and append the
pending `lex.token` when it is non-empty. -/
def split_args (line : String) : List String :=
  let res := lexAll line.data LexState.ws [] false []
  if res.2 = "" then res.1 else res.1 ++ [res.2]

/-- One character of Python's `\w` class.  Python's `re` is Unicode-aware; the
spellings handled here are ASCII, so `[a-zA-Z0-9_]` is used. -/
def isWordChar (c : Char) : Bool :=
  c.isAlphanum || c == '_'

/-- A character that `find_unsafe` does not match, i.e. one of the word
characters or `@ % + = : , . /` or a dash: safe to leave unquoted. -/
def isSafeChar (c : Char) : Bool :=
  isWordChar c || c == '@' || c == '%' || c == '+' || c == '=' || c == ':' ||
    c == ',' || c == '.' || c == '/' || c == '-'

/-- `s.replace("'", "'\"'\"'")` at the character level: every single quote
becomes close-quote, a double-quoted single quote, and a reopened quote. -/
def sqEscapeChars (l : List Char) : List Char :=
  concatMap (fun c => if c == qc then [qc, dq, qc, dq, qc] else [c]) l

/-- Embedding of `click_completion.single_quote`: quote a string so the shell
word-splits it back to a single element. -/
def single_quote (s : String) : String :=
  if s = "" then String.mk [qc, qc]
  else if s.data.all isSafeChar then s
  else String.mk ([qc] ++ sqEscapeChars s.data ++ [qc])

/-- `s.replace('"', '"\'"\'"')` at the character level (for `double_quote`). -/
def dqEscapeChars (l : List Char) : List Char :=
  concatMap (fun c => if c == dq then [dq, qc, dq, qc, dq] else [c]) l

/-- Embedding of `click_completion.double_quote`. -/
def double_quote (s : String) : String :=
  if s = "" then String.mk [dq, dq]
  else if s.data.all isSafeChar then s
  else String.mk ([dq] ++ dqEscapeChars s.data ++ [dq])

/-! ### Data model of the external CLI framework (read-only interface, §6) -/

/-- The value-completion capability attached to a parameter's type.
`plain` is `click.types.ParamType` with the default `complete` patched in by
`param_type_complete` (returns `[]`); `choice cs` is `click.Choice`, whose
patched `choice_complete` prefix-filters its enumerated values. -/
inductive ParamType where
  | plain
  | choice (choices : List String)
deriving DecidableEq, Repr

/-- An option parameter (`click.Option`): primary spellings `opts`,
secondary (negating) spellings `secondary_opts`, the flag / value-taking
distinction, the hidden flag, optional help text, the parameter name, and
the value-completion type. -/
structure OptionParam where
  opts : List String
  secondaryOpts : List String
  isFlag : Bool
  hidden : Bool
  help : Option String
  name : String
  ptype : ParamType
deriving DecidableEq, Repr

/-- A positional argument (`click.Argument`): name, arity (`1` for exactly
one, `-1` for unbounded, per design §3), and value-completion type. -/
structure ArgumentParam where
  name : String
  nargs : Int
  ptype : ParamType
deriving DecidableEq, Repr

/-- A parameter descriptor: the closed tagged variant of design §9. -/
inductive Param where
  | option (o : OptionParam)
  | argument (a : ArgumentParam)
deriving DecidableEq, Repr

/-- The parameter's type (`param.type`). -/
def Param.ptype : Param → ParamType
  | .option o => o.ptype
  | .argument a => a.ptype

/-- `isinstance(param, Option)`, as a projection. -/
def Param.asOption : Param → Option OptionParam
  | .option o => some o
  | .argument _ => none

/-- `isinstance(param, Argument)`, as a projection. -/
def Param.asArgument : Param → Option ArgumentParam
  | .option _ => none
  | .argument a => some a

/-- Whether the parameter is an option carrying the hidden flag. -/
def Param.isHiddenOption : Param → Bool
  | .option o => o.hidden
  | .argument _ => false

/-- A command node of the external framework: its declared parameters,
whether it is a `MultiCommand` (a container exposing subcommands), its
children in declaration order, and its `short_help`. -/
inductive Cmd where
  | mk (params : List Param) (isMulti : Bool) (subs : List (String × Cmd))
      (shortHelp : Option String)

/-- The command's ordered parameter list (`get_params`). -/
def Cmd.params : Cmd → List Param
  | .mk ps _ _ _ => ps

/-- `isinstance(cmd, MultiCommand)`. -/
def Cmd.isMulti : Cmd → Bool
  | .mk _ m _ _ => m

/-- The subcommand table. -/
def Cmd.subs : Cmd → List (String × Cmd)
  | .mk _ _ s _ => s

/-- The command's `short_help`. -/
def Cmd.shortHelp : Cmd → Option String
  | .mk _ _ _ h => h

/-- `cmd.get_command(ctx, name)`: child lookup by literal name. -/
def Cmd.getCommand (c : Cmd) (name : String) : Option Cmd :=
  (c.subs.find? (fun p => p.1 == name)).map (fun p => p.2)

/-- `cmd.list_commands(ctx)`: the child names in the framework's order. -/
def Cmd.listCommands (c : Cmd) : List String :=
  c.subs.map (fun p => p.1)

/-- `multicommand_get_command_short_help`: the short help of the named
subcommand, read through `get_command`. -/
def Cmd.getCommandShortHelp (c : Cmd) (name : String) : Option String :=
  (c.getCommand name).bind Cmd.shortHelp

/-- A value bound to a parameter in `ctx.params`: `vnone` is Python `None`,
`vtuple` a tuple of collected variadic values (`()` when empty). -/
inductive PValue where
  | vnone
  | vstr (s : String)
  | vbool (b : Bool)
  | vtuple (l : List String)
deriving DecidableEq, Repr

/-- The resolution context (`click.core.Context`, restricted to the fields the
completion engine reads): the active command, the bound parameter values, the
unconsumed leftover arguments (`ctx.protected_args + ctx.args`), and the
invocation name. -/
structure Ctx where
  command : Cmd
  params : List (String × PValue)
  leftover : List String
  infoName : String

/-- `optctx.type.complete(ctx, incomplete)` for the two modelled types:
`param_type_complete` returns `[]`; `choice_complete` returns
`[(c, None) for c in self.choices if c.startswith(incomplete)]`
(both from `click_completion/__init__.py`). -/
def typeComplete (t : ParamType) (incomplete : String) : List (String × Option String) :=
  match t with
  | .plain => []
  | .choice cs => (cs.filter (fun c => startswith c incomplete)).map (fun c => (c, none))

/-! ### The lenient parser of the external framework

`cli.make_context(info_name, args, resilient_parsing=True)` is an external
collaborator (design §6): a lenient, non-validating parse that never raises,
binding what it can and exposing leftover arguments.  It is modelled here for
the spellings exercised by this code: exact long options (with `--name=value`
handling), clustered short options, `--` as end-of-options, interspersed
positional arguments for plain commands and a stop at the first positional
for containers, and argument arity `1` or `-1`.  A usage error (unknown
option, missing option value) aborts the parse leniently, keeping the
positional arguments collected so far, exactly as the resilient parser does. -/

/-- Look up an option parameter owning the given spelling; the Bool is true
when the spelling is a primary one. -/
def findOption : List Param → String → Option (OptionParam × Bool)
  | [], _ => none
  | .option o :: rest, spelling =>
    if o.opts.contains spelling then some (o, true)
    else if o.secondaryOpts.contains spelling then some (o, false)
    else findOption rest spelling
  | .argument _ :: rest, spelling => findOption rest spelling

/-- Split a long-option token at the first `=` (`arg.split('=', 1)`). -/
def splitEqChars : List Char → List Char × Option (List Char)
  | [] => ([], none)
  | c :: rest =>
    if c == '=' then ([], some rest)
    else
      match splitEqChars rest with
      | (base, v) => (c :: base, v)

/-- `splitEqChars` on strings. -/
def splitEq (t : String) : String × Option String :=
  match splitEqChars t.data with
  | (base, none) => (String.mk base, none)
  | (base, some v) => (String.mk base, some (String.mk v))

/-- Outcome of processing one cluster of short options (`-vfx`): all flags
bound, or a trailing value-taking option still needing the next token, or an
unknown spelling (a usage error that aborts the lenient parse). -/
inductive ClusterResult where
  | done (binds : List (String × PValue))
  | needValue (binds : List (String × PValue)) (o : OptionParam)
  | bad (binds : List (String × PValue))

/-- Process the characters after the dash of a short-option token. -/
def processShortCluster (params : List Param) :
    List Char → List (String × PValue) → ClusterResult
  | [], binds => .done binds
  | c :: rest, binds =>
    match findOption params (String.mk ['-', c]) with
    | none => .bad binds
    | some (o, primary) =>
      if o.isFlag then processShortCluster params rest ((o.name, .vbool primary) :: binds)
      else if rest ≠ [] then .done ((o.name, .vstr (String.mk rest)) :: binds)
      else .needValue binds o

/-- Outcome of option processing over the whole argument list: `ok` carries
the bindings and the positional tokens (`state.largs` plus any remaining
tokens at a stop), `aborted` carries the state at a swallowed usage error
(whose remaining tokens are dropped, as in the resilient parser). -/
inductive OptScan where
  | ok (binds : List (String × PValue)) (positional : List String)
  | aborted (binds : List (String × PValue)) (largs : List String)

/-- The option-processing loop of the lenient parser.  `interspersed` is
true for plain commands and false for containers (which stop at the first
positional token so it can name a subcommand). -/
def processArgsOpts (params : List Param) (interspersed : Bool) :
    List String → List (String × PValue) → List String → OptScan
  | [], binds, largs => .ok binds largs
  | t :: rest, binds, largs =>
    if t = "--" then .ok binds (largs ++ rest)
    else if startswith t "-" && t != "-" then
      if startswith t "--" then
        match findOption params (splitEq t).1 with
        | none => .aborted binds largs
        | some (o, primary) =>
          if o.isFlag then
            match (splitEq t).2 with
            | some _ => .aborted binds largs
            | none => processArgsOpts params interspersed rest ((o.name, .vbool primary) :: binds) largs
          else
            match (splitEq t).2 with
            | some v => processArgsOpts params interspersed rest ((o.name, .vstr v) :: binds) largs
            | none =>
              match rest with
              | v :: rest2 => processArgsOpts params interspersed rest2 ((o.name, .vstr v) :: binds) largs
              | [] => .aborted binds largs
      else
        match processShortCluster params (t.data.drop 1) [] with
        | .bad newBinds => .aborted (newBinds ++ binds) largs
        | .done newBinds => processArgsOpts params interspersed rest (newBinds ++ binds) largs
        | .needValue newBinds o =>
          match rest with
          | v :: rest2 => processArgsOpts params interspersed rest2 ((o.name, .vstr v) :: newBinds ++ binds) largs
          | [] => .aborted (newBinds ++ binds) largs
    else if interspersed then processArgsOpts params interspersed rest binds (largs ++ [t])
    else .ok binds (largs ++ t :: rest)

/-- Distribute the positional tokens over the declared arguments in
declaration order: arity `-1` collects the whole remainder (an empty tuple
when nothing is left), arity `1` takes one token or stays unset. -/
def fillArguments : List Param → List String → List (String × PValue) →
    List (String × PValue) × List String
  | [], pos, binds => (binds, pos)
  | .option _ :: ps, pos, binds => fillArguments ps pos binds
  | .argument a :: ps, pos, binds =>
    if a.nargs == -1 then fillArguments ps [] ((a.name, .vtuple pos) :: binds)
    else
      match pos with
      | [] => fillArguments ps pos ((a.name, .vnone) :: binds)
      | v :: pos2 => fillArguments ps pos2 ((a.name, .vstr v) :: binds)

/-- `cmd.make_context(info_name, args, resilient_parsing=True)`: the lenient
parse (modelled external interface, §6).  Leftover tokens that no declared
argument consumed become `ctx.protected_args + ctx.args`. -/
def makeContext (cmd : Cmd) (infoName : String) (args : List String) : Ctx :=
  match processArgsOpts cmd.params (!cmd.isMulti) args [] [] with
  | .ok binds pos =>
    match fillArguments cmd.params pos binds with
    | (binds2, leftover) =>
      { command := cmd, params := binds2, leftover := leftover, infoName := infoName }
  | .aborted binds largs =>
    { command := cmd, params := binds, leftover := largs, infoName := infoName }

/-- The descent loop of `resolve_ctx`: while the active command still has
leftover tokens and is a container, look up a child by the first leftover
token (returning the not-found value when there is no such child) and descend
with a fresh lenient parse of the remaining tokens. -/
def resolveLoop (ctx : Ctx) : Option Ctx :=
  match ctx.leftover with
  | [] => some ctx
  | a :: rest =>
    if ctx.command.isMulti then
      match h2 : ctx.command.getCommand a with
      | none => none
      | some cmd => resolveLoop (makeContext cmd a rest)
    else some ctx
termination_by sizeOf ctx.command
decreasing_by
  have hcmd : (makeContext cmd a rest).command = cmd := by
    unfold makeContext
    cases processArgsOpts cmd.params (!cmd.isMulti) rest [] [] <;> rfl
  rw [hcmd]
  cases hC : ctx.command with
  | mk ps m subs sh =>
    rw [hC] at h2
    unfold Cmd.getCommand at h2
    cases hf : (Cmd.mk ps m subs sh).subs.find? (fun p => p.1 == a) with
    | none =>
      rw [hf] at h2
      exact Option.noConfusion h2
    | some pr =>
      rw [hf] at h2
      have hmap : (some pr).map (fun p : String × Cmd => p.2) = some pr.2 := rfl
      rw [hmap] at h2
      cases h2
      have hm : pr ∈ (Cmd.mk ps m subs sh).subs := List.mem_of_find?_eq_some hf
      have h1 : sizeOf pr < sizeOf subs := by
        have := List.sizeOf_lt_of_mem hm
        simpa [Cmd.subs] using this
      cases pr with
      | mk nm cc =>
        simp only [Prod.mk.sizeOf_spec] at h1
        simp only [Cmd.mk.sizeOf_spec]
        omega

/-- Embedding of `click_completion.resolve_ctx` (`__init__.py`; `core.py`
imports the same function): lenient parse of the root, then container
descent. -/
def resolveCtx (cli : Cmd) (progName : String) (args : List String) : Option Ctx :=
  resolveLoop (makeContext cli progName args)


/-! ### Candidate generation (`get_choices`) -/

/-- The process-wide completion configuration of `core.py`:
`complete_options` and the pluggable `match_incomplete` predicate.  The
backward-compatibility shim `core.match` dispatches to `match_incomplete`
under the default setup, so the predicate field models the effective match
function directly. -/
structure CompletionConfiguration where
  completeOptions : Bool
  matchIncomplete : String → String → Bool

/-- The configuration installed by `CompletionConfiguration.__init__`:
`complete_options = False`, `match_incomplete = startswith`. -/
def defaultCompletionConfiguration : CompletionConfiguration :=
  { completeOptions := false, matchIncomplete := startswith }

/-- `incomplete[:1].isalnum()`: whether the first character is alphanumeric
(false for the empty string, as in Python). -/
def firstIsAlnum (s : String) : Bool :=
  match s.data with
  | [] => false
  | c :: _ => c.isAlphanum

/-- The option-offering gate
`completion_configuration.complete_options or incomplete and not
incomplete[:1].isalnum()` evaluated once per option parameter. -/
def completeOptionsNow (completeOpts : Bool) (incomplete : String) : Bool :=
  completeOpts || (!(incomplete == "") && !(firstIsAlnum incomplete))

/-- The candidates one parameter contributes to the option-name enumeration
of `core.get_choices`: nothing for arguments or hidden options; otherwise the
matching primary spellings with the option's help text followed by the
matching secondary spellings with no help text. -/
def optionChoicesFor (mf : String → String → Bool) (completeOpts : Bool)
    (incomplete : String) (p : Param) : List (String × Option String) :=
  match p with
  | .argument _ => []
  | .option o =>
    if completeOptionsNow completeOpts incomplete then
      if o.hidden then []
      else
        (o.opts.filter (fun s => mf s incomplete)).map (fun s => (s, o.help)) ++
          (o.secondaryOpts.filter (fun s => mf s incomplete)).map
            (fun s => (s, (none : Option String)))
    else []

/-- The option-name phase of `core.get_choices`: the per-parameter
contributions in declaration order. -/
def optionNameChoices (mf : String → String → Bool) (completeOpts : Bool)
    (params : List Param) (incomplete : String) : List (String × Option String) :=
  concatMap (optionChoicesFor mf completeOpts incomplete) params

/-- The subcommand phase of `get_choices`: for a container command, every
child name matching the predicate, paired with its short help. -/
def subcommandChoices (mf : String → String → Bool) (ctx : Ctx)
    (incomplete : String) : List (String × Option String) :=
  if ctx.command.isMulti then
    (ctx.command.listCommands.filter (fun n => mf n incomplete)).map
      (fun n => (n, ctx.command.getCommandShortHelp n))
  else []

/-- `ctx.params.get(param.name) in (None, ())`: the argument's bound-value
slot is still empty or an empty variadic tuple (an absent entry reads as
Python `None`). -/
def paramUnbound (ctx : Ctx) (name : String) : Bool :=
  match ctx.params.lookup name with
  | none => true
  | some .vnone => true
  | some (.vtuple []) => true
  | some _ => false

/-- The `for param in options` loop of `get_choices`: the last declared
value-taking option whose primary or secondary spellings contain the last
consumed token (later iterations overwrite `optctx`). -/
def lastValueOption (options : List OptionParam) (lastArg : String) :
    Option OptionParam :=
  options.foldl
    (fun acc o =>
      if !o.isFlag && (o.opts ++ o.secondaryOpts).contains lastArg then some o
      else acc)
    none

/-- The value-completion-target selection of `get_choices` (the body guarded
by `if args:`): first the last matching value-taking option for `args[-1]`,
then — only when the incomplete token does not start with a dash — the first
positional argument that is unbound or unbounded. -/
def optctxFor (ctx : Ctx) (args : List String) (incomplete : String) : Option Param :=
  if args.isEmpty then none
  else
    let lastArg := args.getLastD ""
    match lastValueOption (ctx.command.params.filterMap Param.asOption) lastArg with
    | some o => some (.option o)
    | none =>
      ((ctx.command.params.filterMap Param.asArgument).find?
          (fun a => !(startswith incomplete "-") &&
            (paramUnbound ctx a.name || a.nargs == -1))).map Param.argument

/-- Embedding of `get_choices` from `click_completion/core.py`: resolve the
context (yielding nothing when resolution fails), route to a value-completion
target when one is selected, and otherwise enumerate option names and
subcommand names. -/
def get_choices (cfg : CompletionConfiguration) (cli : Cmd) (progName : String)
    (args : List String) (incomplete : String) : List (String × Option String) :=
  match resolveCtx cli progName args with
  | none => []
  | some ctx =>
    match optctxFor ctx args incomplete with
    | some p => typeComplete p.ptype incomplete
    | none =>
      optionNameChoices cfg.matchIncomplete cfg.completeOptions
          ctx.command.params incomplete ++
        subcommandChoices cfg.matchIncomplete ctx incomplete

/-- The per-parameter option-name contribution of the older `get_choices` in
`click_completion/__init__.py`: same as `core.py` except that the match
predicate is the module-level `startswith` and there is no hidden-option
filter. -/
def legacyOptionChoicesFor (completeOpts : Bool) (incomplete : String)
    (p : Param) : List (String × Option String) :=
  match p with
  | .argument _ => []
  | .option o =>
    if completeOptionsNow completeOpts incomplete then
      (o.opts.filter (fun s => startswith s incomplete)).map (fun s => (s, o.help)) ++
        (o.secondaryOpts.filter (fun s => startswith s incomplete)).map
          (fun s => (s, (none : Option String)))
    else []

/-- The option-name phase of the older `get_choices`. -/
def legacyOptionNameChoices (completeOpts : Bool) (params : List Param)
    (incomplete : String) : List (String × Option String) :=
  concatMap (legacyOptionChoicesFor completeOpts incomplete) params

/-- Embedding of `get_choices` from `click_completion/__init__.py` (the older
module-level implementation).  Its configuration object carries only
`complete_options`; matching is hard-wired to `startswith`. -/
def legacy_get_choices (completeOpts : Bool) (cli : Cmd) (progName : String)
    (args : List String) (incomplete : String) : List (String × Option String) :=
  match resolveCtx cli progName args with
  | none => []
  | some ctx =>
    match optctxFor ctx args incomplete with
    | some p => typeComplete p.ptype incomplete
    | none =>
      legacyOptionNameChoices completeOpts ctx.command.params incomplete ++
        subcommandChoices startswith ctx incomplete

/-! ### The Z-shell emitter -/

/-- Substitute every occurrence of a character (`str.replace` with a
one-character pattern). -/
def replaceChar (c : Char) (r : List Char) (l : List Char) : List Char :=
  concatMap (fun x => if x == c then r else [x]) l

/-- The local `escape` of `core.do_zsh_complete`:
double each double quote, double each single quote, backslash-escape dollar
signs and backquotes (applied in that order). -/
def zshEscape (s : String) : String :=
  String.mk
    (replaceChar backquoteChar ['\\', backquoteChar]
      (replaceChar '$' ['\\', '$']
        (replaceChar qc [qc, qc]
          (replaceChar dq [dq, dq] s.data))))

/-- Python truthiness of an optional help string (`if help:`). -/
def optTruthy : Option String → Bool
  | none => false
  | some h => !(h == "")

/-- One formatted Z-shell descriptor entry: `"item"\:"help"` when help text
is present and truthy, else `"item"` (with both components escaped). -/
def zshFormatPair (p : String × Option String) : String :=
  match p.2 with
  | some h =>
    if h == "" then String.mk [dq] ++ zshEscape p.1 ++ String.mk [dq]
    else
      String.mk [dq] ++ zshEscape p.1 ++ String.mk [dq] ++ "\\:" ++
        String.mk [dq] ++ zshEscape h ++ String.mk [dq]
  | none => String.mk [dq] ++ zshEscape p.1 ++ String.mk [dq]

/-- The shared `COMMANDLINE` preprocessing of the fish/zsh/powershell
emitters: drop the program name from the split tokens; when the line does not
end in a space the last token is the incomplete one. -/
def commandlineArgsIncomplete (commandline : String) : List String × String :=
  let args := (split_args commandline).drop 1
  if args = [] then (args, "")
  else if strEndsWith commandline " " then (args, "")
  else (args.dropLast, args.getLastD "")

/-- Embedding of `core.do_zsh_complete`, as the single line it echoes: an
`_arguments` descriptor embedding all escaped pairs, or the `_files`
fallback when there are no candidates. -/
def do_zsh_complete (cfg : CompletionConfiguration) (cli : Cmd)
    (progName : String) (commandline : String) : String :=
  let ai := commandlineArgsIncomplete commandline
  let res := (get_choices cfg cli progName ai.1 ai.2).map zshFormatPair
  if res = [] then "_files"
  else
    "_arguments " ++ String.mk [qc] ++ "*: :((" ++
      String.intercalate "\n" res ++ "))" ++ String.mk [qc]

/-! ### Concrete commands used by the testable properties (§8) -/

/-- The verbose flag (spellings `--verbose` and `-v`) of the §8 example command. -/
def verboseOption : OptionParam :=
  { opts := ["--verbose", "-v"], secondaryOpts := [], isFlag := true,
    hidden := false, help := some "Verbose output", name := "verbose",
    ptype := .plain }

/-- The value-taking `--name TEXT` option of the §8 example command (its text
type declares no value completions). -/
def nameOption : OptionParam :=
  { opts := ["--name"], secondaryOpts := [], isFlag := false, hidden := false,
    help := some "A name", name := "name", ptype := .plain }

/-- The choice-typed positional argument of the §8 example command, with
allowed values a, b, c. -/
def choiceArgument : ArgumentParam :=
  { name := "arg", nargs := 1, ptype := .choice ["a", "b", "c"] }

/-- The §8 example command: `--verbose` with short spelling `-v`,
`--name TEXT`, and a choice-typed positional argument. -/
def exampleCmd : Cmd :=
  .mk [.option verboseOption, .option nameOption, .argument choiceArgument]
    false [] none

/-- A flag with a secondary (negating) spelling and help text. -/
def colorOption : OptionParam :=
  { opts := ["--color"], secondaryOpts := ["--no-color"], isFlag := true,
    hidden := false, help := some "Use color", name := "color",
    ptype := .plain }

/-- A command declaring `colorOption`. -/
def colorCmd : Cmd := .mk [.option colorOption] false [] none

/-- A hidden flag. -/
def secretOption : OptionParam :=
  { opts := ["--secret"], secondaryOpts := [], isFlag := true, hidden := true,
    help := some "secret option", name := "secret", ptype := .plain }

/-- A command whose only option is hidden. -/
def hiddenCmd : Cmd := .mk [.option secretOption] false [] none

/-- A leaf subcommand. -/
def subLeaf : Cmd := .mk [] false [] (some "sub command")

/-- A container command with a single subcommand named `sub`. -/
def groupCmd : Cmd := .mk [] true [("sub", subLeaf)] none

/-! ### Lemmas about the embedded definitions -/

/-- The context built by `makeContext` is for the command it was given. -/
theorem makeContext_command (c : Cmd) (n : String) (a : List String) :
    (makeContext c n a).command = c := by
  unfold makeContext
  cases processArgsOpts c.params (!c.isMulti) a [] [] <;> rfl

/-- A child found by `get_command` is structurally below its parent. -/
theorem getCommand_sizeOf {c c2 : Cmd} {name : String}
    (h : c.getCommand name = some c2) : sizeOf c2 < sizeOf c := by
  cases c with
  | mk ps m subs sh =>
    unfold Cmd.getCommand at h
    cases hf : (Cmd.mk ps m subs sh).subs.find? (fun p => p.1 == name) with
    | none =>
      rw [hf] at h
      exact Option.noConfusion h
    | some pr =>
      rw [hf] at h
      have hmap : (some pr).map (fun p : String × Cmd => p.2) = some pr.2 := rfl
      rw [hmap] at h
      cases h
      have hm : pr ∈ (Cmd.mk ps m subs sh).subs := List.mem_of_find?_eq_some hf
      have h1 : sizeOf pr < sizeOf subs := by
        have := List.sizeOf_lt_of_mem hm
        simpa [Cmd.subs] using this
      cases pr with
      | mk nm cc =>
        simp only [Prod.mk.sizeOf_spec] at h1
        simp only [Cmd.mk.sizeOf_spec]
        omega

/-- Unfolding of `resolveLoop` when no leftover tokens remain. -/
theorem resolveLoop_leftover_nil (ctx : Ctx) (h : ctx.leftover = []) :
    resolveLoop ctx = some ctx := by
  unfold resolveLoop
  split
  · rfl
  · rename_i a rest heq
    rw [h] at heq
    cases heq

/-- Unfolding of `resolveLoop` when the first leftover token names no child
of a container command. -/
theorem resolveLoop_no_child (ctx : Ctx) (a : String) (rest : List String)
    (h : ctx.leftover = a :: rest) (hm : ctx.command.isMulti = true)
    (hc : ctx.command.getCommand a = none) : resolveLoop ctx = none := by
  unfold resolveLoop
  split
  · rename_i heq
    rw [h] at heq
    cases heq
  · rename_i a' rest' heq
    rw [h] at heq
    cases heq
    rw [if_pos hm]
    split
    · rfl
    · rename_i cmd h2
      rw [hc] at h2
      cases h2

/-- `resolveCtx` on arguments that the root command fully consumes. -/
theorem resolveCtx_leftover_nil (cmd : Cmd) (nm : String) (args : List String)
    (h : (makeContext cmd nm args).leftover = []) :
    resolveCtx cmd nm args = some (makeContext cmd nm args) := by
  unfold resolveCtx
  exact resolveLoop_leftover_nil _ h

/-! ### Shared lemmas -/

/-- Membership in a `concatMap`. -/
theorem mem_concatMap {f : α → List β} {b : β} {l : List α} :
    b ∈ concatMap f l ↔ ∃ a ∈ l, b ∈ f a := by
  induction l with
  | nil => simp [concatMap]
  | cons x xs ih => simp [concatMap, ih, List.mem_append]

/-- `optionNameChoices` on a cons. -/
theorem optionNameChoices_cons (mf : String → String → Bool) (co : Bool)
    (p : Param) (ps : List Param) (inc : String) :
    optionNameChoices mf co (p :: ps) inc =
      optionChoicesFor mf co inc p ++ optionNameChoices mf co ps inc := rfl

/-- A hidden option contributes nothing to the option-name enumeration. -/
theorem optionChoicesFor_hidden (mf : String → String → Bool) (co : Bool)
    (inc : String) (o : OptionParam) (ho : o.hidden = true) :
    optionChoicesFor mf co inc (.option o) = [] := by
  simp only [optionChoicesFor, ho]
  split <;> rfl

/-- With the option gate closed, no parameter contributes option names. -/
theorem optionChoicesFor_gate_false (mf : String → String → Bool) (co : Bool)
    (inc : String) (p : Param) (hg : completeOptionsNow co inc = false) :
    optionChoicesFor mf co inc p = [] := by
  unfold optionChoicesFor
  cases p with
  | argument a => rfl
  | option o => rw [hg]; rfl

/-- With the option gate closed, the option-name enumeration is empty. -/
theorem optionNameChoices_of_gate_false (mf : String → String → Bool) (co : Bool)
    (params : List Param) (inc : String) (hg : completeOptionsNow co inc = false) :
    optionNameChoices mf co params inc = [] := by
  induction params with
  | nil => rfl
  | cons p ps ih =>
    rw [optionNameChoices_cons, optionChoicesFor_gate_false mf co inc p hg, ih]
    rfl

/-- When resolution succeeds and no value-completion target is selected,
`get_choices` is the option-name enumeration followed by the subcommand
enumeration. -/
theorem get_choices_enumeration (cfg : CompletionConfiguration) (cli : Cmd)
    (progName : String) (args : List String) (incomplete : String) (ctx : Ctx)
    (hres : resolveCtx cli progName args = some ctx)
    (hopt : optctxFor ctx args incomplete = none) :
    get_choices cfg cli progName args incomplete =
      optionNameChoices cfg.matchIncomplete cfg.completeOptions
          ctx.command.params incomplete ++
        subcommandChoices cfg.matchIncomplete ctx incomplete := by
  simp only [get_choices, hres, hopt]

/-! ### Claim theorems -/

/-- C3: for every command tree, program name, argument list and incomplete
token, if context resolution returns the not-found value then `get_choices`
yields the empty sequence (it returns before producing anything, rather than
raising). -/
theorem get_choices_empty_of_resolve_none (cfg : CompletionConfiguration)
    (cli : Cmd) (progName : String) (args : List String) (incomplete : String)
    (h : resolveCtx cli progName args = none) :
    get_choices cfg cli progName args incomplete = [] := by
  unfold get_choices
  rw [h]

/-- Witness for C3: on a container with a single child `sub`, the leftover
token `nope` names no child, resolution fails, and the candidates are empty. -/
theorem get_choices_empty_of_resolve_none_witness :
    resolveCtx groupCmd "prog" ["nope"] = none ∧
      get_choices defaultCompletionConfiguration groupCmd "prog" ["nope"] "" = [] := by
  have hres : resolveCtx groupCmd "prog" ["nope"] = none := by
    unfold resolveCtx
    exact resolveLoop_no_child _ "nope" [] rfl rfl rfl
  exact ⟨hres, get_choices_empty_of_resolve_none _ _ _ _ _ hres⟩

/-- C2: `split_args` is total (it is defined by structural recursion over the
input — the termination argument for the Python loop — and returns a token
list for every input string); when the lexer run ends by raising, the
partially accumulated pending lexer token, if non-empty, is appended as the
final element of the result. -/
theorem split_args_appends_pending_token (s pending : String)
    (h : (lexAll s.data LexState.ws [] false []).2 = pending)
    (hne : pending ≠ "") :
    split_args s = (lexAll s.data LexState.ws [] false []).1 ++ [pending] ∧
      (split_args s).getLast? = some pending := by
  have heq : split_args s =
      (lexAll s.data LexState.ws [] false []).1 ++ [pending] := by
    simp only [split_args, h]
    rw [if_neg hne]
  refine ⟨heq, ?_⟩
  rw [heq]
  exact List.getLast?_concat _

/-- Witness for C2: the input consisting of a double quote followed by `abc`
raises in the lexer with pending token `abc`, which `split_args` returns as
the (only, hence final) element. -/
theorem split_args_appends_pending_token_witness :
    (lexAll ("\"abc").data LexState.ws [] false []).2 = "abc" ∧
      split_args "\"abc" = ["abc"] ∧
      (split_args "\"abc").getLast? = some "abc" := by
  refine ⟨by decide, by decide, ?_⟩
  exact (split_args_appends_pending_token "\"abc" "abc" (by decide)
    (by decide)).2

/-- C4: when the arguments are non-empty and the last consumed token is a
spelling of some value-taking option of the active command (the last such
declared option winning, as in the source loop), `get_choices` returns
exactly the completions supplied by that option's type — no option-name or
subcommand-name candidates. -/
theorem get_choices_value_option_target (cfg : CompletionConfiguration)
    (cli : Cmd) (progName : String) (args : List String) (incomplete : String)
    (ctx : Ctx) (o : OptionParam)
    (hres : resolveCtx cli progName args = some ctx)
    (hargs : args.isEmpty = false)
    (hlast : lastValueOption (ctx.command.params.filterMap Param.asOption)
      (args.getLastD "") = some o) :
    get_choices cfg cli progName args incomplete =
      typeComplete o.ptype incomplete := by
  have hoptctx : optctxFor ctx args incomplete = some (.option o) := by
    simp only [optctxFor, hargs, Bool.false_eq_true, if_false, hlast]
  simp only [get_choices, hres, hoptctx, Param.ptype]

/-- Witness for C4: with `args = ["--name"]` and empty incomplete token on
the §8 example command, the target is `--name` and the result is exactly its
type's completions — empty, since its text type declares none. -/
theorem get_choices_value_option_target_witness :
    resolveCtx exampleCmd "prog" ["--name"] =
        some (makeContext exampleCmd "prog" ["--name"]) ∧
      lastValueOption
          ((makeContext exampleCmd "prog" ["--name"]).command.params.filterMap
            Param.asOption) (["--name"].getLastD "") = some nameOption ∧
      get_choices defaultCompletionConfiguration exampleCmd "prog" ["--name"] ""
        = [] := by
  have hres := resolveCtx_leftover_nil exampleCmd "prog" ["--name"] rfl
  refine ⟨hres, by decide, ?_⟩
  have h := get_choices_value_option_target defaultCompletionConfiguration
    exampleCmd "prog" ["--name"] "" (makeContext exampleCmd "prog" ["--name"])
    nameOption hres rfl (by decide)
  rw [h]
  rfl

/-- C5: for every match predicate, policy-flag value and incomplete token,
the option-name enumeration of `get_choices` is unchanged when the hidden
options are removed — a hidden option contributes no candidate, neither a
primary nor a secondary spelling; and (second conjunct) whenever resolution
succeeds and no value-completion target is selected, `get_choices` is exactly
that enumeration followed by the subcommand names. -/
theorem get_choices_hidden_options_skipped :
    (∀ (mf : String → String → Bool) (co : Bool) (params : List Param)
        (incomplete : String),
      optionNameChoices mf co params incomplete =
        optionNameChoices mf co
          (params.filter (fun p => !(Param.isHiddenOption p))) incomplete) ∧
    (∀ (cfg : CompletionConfiguration) (cli : Cmd) (progName : String)
        (args : List String) (incomplete : String) (ctx : Ctx),
      resolveCtx cli progName args = some ctx →
      optctxFor ctx args incomplete = none →
      get_choices cfg cli progName args incomplete =
        optionNameChoices cfg.matchIncomplete cfg.completeOptions
            ctx.command.params incomplete ++
          subcommandChoices cfg.matchIncomplete ctx incomplete) := by
  constructor
  · intro mf co params incomplete
    induction params with
    | nil => rfl
    | cons p ps ih =>
      cases p with
      | argument a =>
        rw [optionNameChoices_cons, ih]
        rfl
      | option o =>
        cases ho : o.hidden with
        | true =>
          rw [optionNameChoices_cons, optionChoicesFor_hidden mf co incomplete o ho,
            List.nil_append, ih]
          have hf : List.filter (fun p => !(Param.isHiddenOption p))
              (Param.option o :: ps) =
              List.filter (fun p => !(Param.isHiddenOption p)) ps := by
            rw [List.filter_cons]
            simp [Param.isHiddenOption, ho]
          rw [hf]
        | false =>
          have hf : List.filter (fun p => !(Param.isHiddenOption p))
              (Param.option o :: ps) =
              Param.option o ::
                List.filter (fun p => !(Param.isHiddenOption p)) ps := by
            rw [List.filter_cons]
            simp [Param.isHiddenOption, ho]
          rw [optionNameChoices_cons, hf, optionNameChoices_cons, ih]
  · exact fun cfg cli progName args incomplete ctx hres hopt =>
      get_choices_enumeration cfg cli progName args incomplete ctx hres hopt

/-- Witness for C5: on the example command with an empty argument list and
incomplete token `-`, `get_choices` is the enumeration of the second
conjunct, and (first conjunct, instantiated) the enumeration over the
hidden command's parameters equals the one over its non-hidden parameters
(which is empty). -/
theorem get_choices_hidden_options_skipped_witness :
    get_choices defaultCompletionConfiguration exampleCmd "prog" [] "-" =
      optionNameChoices defaultCompletionConfiguration.matchIncomplete
          defaultCompletionConfiguration.completeOptions
          (makeContext exampleCmd "prog" []).command.params "-" ++
        subcommandChoices defaultCompletionConfiguration.matchIncomplete
          (makeContext exampleCmd "prog" []) "-" ∧
    optionNameChoices startswith false hiddenCmd.params "-" =
      optionNameChoices startswith false
        (hiddenCmd.params.filter (fun p => !(Param.isHiddenOption p))) "-" := by
  constructor
  · exact get_choices_hidden_options_skipped.2 defaultCompletionConfiguration
      exampleCmd "prog" [] "-" (makeContext exampleCmd "prog" [])
      (resolveCtx_leftover_nil exampleCmd "prog" [] rfl) rfl
  · exact get_choices_hidden_options_skipped.1 startswith false
      hiddenCmd.params "-"

/-- C6: whenever option names are enumerated (resolution succeeded, no
value-completion target, gate open), every matching secondary spelling of a
non-hidden option is emitted as a candidate with no help text, even though
the primary spellings of the same option are emitted with its help text. -/
theorem get_choices_secondary_spelling_no_help (cfg : CompletionConfiguration)
    (cli : Cmd) (progName : String) (args : List String) (incomplete : String)
    (ctx : Ctx) (o : OptionParam) (s : String)
    (hres : resolveCtx cli progName args = some ctx)
    (hopt : optctxFor ctx args incomplete = none)
    (hmem : Param.option o ∈ ctx.command.params)
    (hhid : o.hidden = false)
    (hgate : completeOptionsNow cfg.completeOptions incomplete = true)
    (hs : s ∈ o.secondaryOpts)
    (hmatch : cfg.matchIncomplete s incomplete = true) :
    (s, (none : Option String)) ∈ get_choices cfg cli progName args incomplete := by
  rw [get_choices_enumeration cfg cli progName args incomplete ctx hres hopt]
  apply List.mem_append_left
  unfold optionNameChoices
  apply mem_concatMap.mpr
  refine ⟨Param.option o, hmem, ?_⟩
  simp only [optionChoicesFor, hgate, hhid, if_true, Bool.false_eq_true, if_false]
  apply List.mem_append_right
  apply List.mem_map.mpr
  exact ⟨s, List.mem_filter.mpr ⟨hs, hmatch⟩, rfl⟩

/-- Witness for C6: on a command declaring `--color` with secondary spelling
`--no-color` and help text, completing `-` emits `("--no-color", None)`. -/
theorem get_choices_secondary_spelling_no_help_witness :
    ("--no-color", (none : Option String)) ∈
      get_choices defaultCompletionConfiguration colorCmd "prog" [] "-" := by
  exact get_choices_secondary_spelling_no_help defaultCompletionConfiguration
    colorCmd "prog" [] "-" (makeContext colorCmd "prog" []) colorOption
    "--no-color" (resolveCtx_leftover_nil colorCmd "prog" [] rfl) rfl
    (by decide) rfl rfl (by decide) (by decide)

/-- C7: option-name candidates are gated exactly by
`complete_options ∨ (incomplete non-empty ∧ first character not
alphanumeric)`: when the gate is closed the option-name enumeration is empty
and `get_choices` falls through to subcommand names only; and on the §8
example command, an empty argument list with incomplete token `-` yields
`--verbose`, `-v` and `--name` with their help texts, in declaration order. -/
theorem get_choices_option_gate :
    (∀ (mf : String → String → Bool) (co : Bool) (params : List Param)
        (incomplete : String),
      (co || (!(incomplete == "") && !(firstIsAlnum incomplete))) = false →
      optionNameChoices mf co params incomplete = []) ∧
    (∀ (cfg : CompletionConfiguration) (cli : Cmd) (progName : String)
        (args : List String) (incomplete : String) (ctx : Ctx),
      resolveCtx cli progName args = some ctx →
      optctxFor ctx args incomplete = none →
      completeOptionsNow cfg.completeOptions incomplete = false →
      get_choices cfg cli progName args incomplete =
        subcommandChoices cfg.matchIncomplete ctx incomplete) ∧
    get_choices defaultCompletionConfiguration exampleCmd "prog" [] "-" =
      [("--verbose", some "Verbose output"), ("-v", some "Verbose output"),
        ("--name", some "A name")] := by
  refine ⟨?_, ?_, ?_⟩
  · intro mf co params incomplete hg
    exact optionNameChoices_of_gate_false mf co params incomplete hg
  · intro cfg cli progName args incomplete ctx hres hopt hg
    rw [get_choices_enumeration cfg cli progName args incomplete ctx hres hopt,
      optionNameChoices_of_gate_false _ _ _ _ hg, List.nil_append]
  · have hres := resolveCtx_leftover_nil exampleCmd "prog" [] rfl
    simp only [get_choices, hres]
    rfl

/-- Witness for C7: with incomplete token `x` (alphanumeric first character)
and the default policy, the gate is closed and the example command (which has
no subcommands) yields no candidates at all. -/
theorem get_choices_option_gate_witness :
    optionNameChoices startswith false exampleCmd.params "x" = [] ∧
      get_choices defaultCompletionConfiguration exampleCmd "prog" [] "x" =
        subcommandChoices defaultCompletionConfiguration.matchIncomplete
          (makeContext exampleCmd "prog" []) "x" := by
  constructor
  · exact get_choices_option_gate.1 startswith false exampleCmd.params "x"
      (by decide)
  · exact get_choices_option_gate.2.1 defaultCompletionConfiguration exampleCmd
      "prog" [] "x" (makeContext exampleCmd "prog" [])
      (resolveCtx_leftover_nil exampleCmd "prog" [] rfl) rfl (by decide)

/-- C8: for every command line on which the candidate generator produces zero
candidates, `do_zsh_complete` outputs exactly the `_files` fallback; for every
non-empty candidate list it outputs the single `_arguments` descriptor
embedding all escaped pairs. -/
theorem do_zsh_complete_output (cfg : CompletionConfiguration) (cli : Cmd)
    (progName : String) (commandline : String) :
    (get_choices cfg cli progName (commandlineArgsIncomplete commandline).1
        (commandlineArgsIncomplete commandline).2 = [] →
      do_zsh_complete cfg cli progName commandline = "_files") ∧
    (get_choices cfg cli progName (commandlineArgsIncomplete commandline).1
        (commandlineArgsIncomplete commandline).2 ≠ [] →
      do_zsh_complete cfg cli progName commandline =
        "_arguments " ++ String.mk [qc] ++ "*: :((" ++
          String.intercalate "\n"
            ((get_choices cfg cli progName
                (commandlineArgsIncomplete commandline).1
                (commandlineArgsIncomplete commandline).2).map zshFormatPair) ++
          "))" ++ String.mk [qc]) := by
  constructor
  · intro h
    simp only [do_zsh_complete, h]
    rfl
  · intro h
    simp only [do_zsh_complete]
    rw [if_neg]
    simp only [ne_eq, List.map_eq_nil_iff]
    exact h

/-- Witness for C8: on the §8 example command with raw command line
`prog x`, the incomplete token is `x`, the generator yields nothing, and the
emitter prints exactly `_files`. -/
theorem do_zsh_complete_output_witness :
    get_choices defaultCompletionConfiguration exampleCmd "prog"
        (commandlineArgsIncomplete "prog x").1
        (commandlineArgsIncomplete "prog x").2 = [] ∧
      do_zsh_complete defaultCompletionConfiguration exampleCmd "prog" "prog x"
        = "_files" := by
  have hsplit : commandlineArgsIncomplete "prog x" = ([], "x") := by decide
  have hempty : get_choices defaultCompletionConfiguration exampleCmd "prog"
      (commandlineArgsIncomplete "prog x").1
      (commandlineArgsIncomplete "prog x").2 = [] := by
    rw [hsplit]
    have hres := resolveCtx_leftover_nil exampleCmd "prog" [] rfl
    simp only [get_choices, hres]
    rfl
  exact ⟨hempty,
    (do_zsh_complete_output defaultCompletionConfiguration exampleCmd "prog"
      "prog x").1 hempty⟩

/-- C1 counterexample: on the §8 example command, calling `get_choices` with
`args = []` and incomplete token `b` (the choice argument unbound) produces
the empty list — not `[("b", None)]` as claimed.  The value-completion-target
selection, including the positional-argument step, only runs under
`if args:`, so an empty argument list never routes to the choice argument. -/
theorem get_choices_empty_args_counterexample :
    get_choices defaultCompletionConfiguration exampleCmd "prog" [] "b" = [] ∧
      get_choices defaultCompletionConfiguration exampleCmd "prog" [] "b" ≠
        [("b", (none : Option String))] := by
  have hres := resolveCtx_leftover_nil exampleCmd "prog" [] rfl
  have h : get_choices defaultCompletionConfiguration exampleCmd "prog" [] "b"
      = [] := by
    simp only [get_choices, hres]
    rfl
  refine ⟨h, ?_⟩
  rw [h]
  simp

/-- C1 amended: on the §8 example command, when the argument list is
non-empty but leaves the choice argument unbound (here `args = ["--verbose"]`)
and the incomplete token is `b`, `get_choices` produces exactly
`[("b", None)]` by prefix-matching the incomplete token against the
argument's choice values. -/
theorem get_choices_choice_argument_completion :
    get_choices defaultCompletionConfiguration exampleCmd "prog" ["--verbose"]
      "b" = [("b", (none : Option String))] := by
  have hres := resolveCtx_leftover_nil exampleCmd "prog" ["--verbose"] rfl
  simp only [get_choices, hres]
  rfl

/-- The option-name enumerations of `core.py` and `__init__.py` agree (under
`startswith` matching) whenever no listed option is hidden. -/
theorem optionNameChoices_eq_legacy (co : Bool) (params : List Param)
    (inc : String) (h : ∀ p ∈ params, Param.isHiddenOption p = false) :
    optionNameChoices startswith co params inc =
      legacyOptionNameChoices co params inc := by
  induction params with
  | nil => rfl
  | cons p ps ih =>
    have hp := h p (List.mem_cons_self p ps)
    have hps : ∀ q ∈ ps, Param.isHiddenOption q = false :=
      fun q hq => h q (List.mem_cons_of_mem p hq)
    rw [optionNameChoices_cons]
    show optionChoicesFor startswith co inc p ++
        optionNameChoices startswith co ps inc =
      legacyOptionChoicesFor co inc p ++ legacyOptionNameChoices co ps inc
    rw [ih hps]
    cases p with
    | argument a => rfl
    | option o =>
      have ho : o.hidden = false := hp
      simp only [optionChoicesFor, legacyOptionChoicesFor, ho,
        Bool.false_eq_true, if_false]

/-- C10 counterexample: on a command whose only option `--secret` is hidden,
with the default configuration, empty arguments and incomplete token `-`, the
`core.py` generator yields nothing while the `__init__.py` generator yields
the hidden option — the two implementations differ. -/
theorem core_legacy_get_choices_counterexample :
    get_choices defaultCompletionConfiguration hiddenCmd "prog" [] "-" = [] ∧
      legacy_get_choices false hiddenCmd "prog" [] "-" =
        [("--secret", some "secret option")] ∧
      get_choices defaultCompletionConfiguration hiddenCmd "prog" [] "-" ≠
        legacy_get_choices false hiddenCmd "prog" [] "-" := by
  have hres := resolveCtx_leftover_nil hiddenCmd "prog" [] rfl
  have h1 : get_choices defaultCompletionConfiguration hiddenCmd "prog" [] "-"
      = [] := by
    simp only [get_choices, hres]
    rfl
  have h2 : legacy_get_choices false hiddenCmd "prog" [] "-" =
      [("--secret", some "secret option")] := by
    simp only [legacy_get_choices, hres]
    rfl
  refine ⟨h1, h2, ?_⟩
  rw [h1, h2]
  simp

/-- C10 amended: under the default configuration (`complete_options` off,
`startswith` matching) the two `get_choices` implementations produce
identical candidate sequences whenever the resolved active command declares
no hidden option. -/
theorem core_get_choices_eq_legacy_of_no_hidden (cli : Cmd) (progName : String)
    (args : List String) (incomplete : String)
    (hnh : ∀ ctx, resolveCtx cli progName args = some ctx →
      ∀ p ∈ ctx.command.params, Param.isHiddenOption p = false) :
    get_choices defaultCompletionConfiguration cli progName args incomplete =
      legacy_get_choices false cli progName args incomplete := by
  unfold get_choices legacy_get_choices
  cases hres : resolveCtx cli progName args with
  | none => rfl
  | some ctx =>
    cases hopt : optctxFor ctx args incomplete with
    | some p => simp only [hopt]
    | none =>
      have h := hnh ctx hres
      simp only [hopt]
      show optionNameChoices startswith false ctx.command.params incomplete ++
          subcommandChoices startswith ctx incomplete =
        legacyOptionNameChoices false ctx.command.params incomplete ++
          subcommandChoices startswith ctx incomplete
      rw [optionNameChoices_eq_legacy false ctx.command.params incomplete h]

/-- Witness for C10 amended: on the §8 example command (no hidden options),
both generators agree on empty arguments with incomplete token `-`. -/
theorem core_get_choices_eq_legacy_of_no_hidden_witness :
    get_choices defaultCompletionConfiguration exampleCmd "prog" [] "-" =
      legacy_get_choices false exampleCmd "prog" [] "-" := by
  apply core_get_choices_eq_legacy_of_no_hidden
  intro ctx hres p hp
  rw [resolveCtx_leftover_nil exampleCmd "prog" [] rfl] at hres
  cases hres
  rw [makeContext_command] at hp
  fin_cases hp <;> rfl

/-! ### Lemmas for the quoting round trip (C9) -/

/-- A safe character is not lexer whitespace. -/
theorem isSafeChar_not_ws {c : Char} (h : isSafeChar c = true) :
    isWhitespaceChar c = false := by
  by_contra hw
  rw [Bool.not_eq_false] at hw
  simp only [isWhitespaceChar, Bool.or_eq_true, beq_iff_eq] at hw
  rcases hw with ((h1 | h1) | h1) | h1 <;> subst h1 <;> exact absurd h (by decide)

/-- A safe character is not the single quote. -/
theorem isSafeChar_ne_qc {c : Char} (h : isSafeChar c = true) :
    (c == qc) = false := by
  by_contra hq
  rw [Bool.not_eq_false, beq_iff_eq] at hq
  subst hq
  exact absurd h (by decide)

/-- A safe character is not the double quote. -/
theorem isSafeChar_ne_dq {c : Char} (h : isSafeChar c = true) :
    (c == dq) = false := by
  by_contra hq
  rw [Bool.not_eq_false, beq_iff_eq] at hq
  subst hq
  exact absurd h (by decide)

/-- A safe character is not the escape character. -/
theorem isSafeChar_ne_esc {c : Char} (h : isSafeChar c = true) :
    (c == escapeChar) = false := by
  by_contra hq
  rw [Bool.not_eq_false, beq_iff_eq] at hq
  subst hq
  exact absurd h (by decide)

/-- Lexing safe characters from the word state appends them all to the
current token and emits it at end of input. -/
theorem lexAll_word_safe (l tok : List Char) (q : Bool) (acc : List String)
    (hsafe : l.all isSafeChar = true) (hne : tok ≠ [] ∨ q = true) :
    lexAll l LexState.word tok q acc = (acc ++ [String.mk (tok ++ l)], "") := by
  induction l generalizing tok with
  | nil =>
    simp only [lexAll, List.append_nil]
    rw [if_pos hne]
  | cons c rest ih =>
    rw [List.all_cons, Bool.and_eq_true] at hsafe
    obtain ⟨hc, hrest⟩ := hsafe
    have hws := isSafeChar_not_ws hc
    have hqc := isSafeChar_ne_qc hc
    have hdq := isSafeChar_ne_dq hc
    have hesc := isSafeChar_ne_esc hc
    simp only [lexAll, hws, hqc, hdq, hesc, Bool.or_self, Bool.false_eq_true,
      if_false]
    rw [ih (tok ++ [c]) hrest (Or.inl (by simp))]
    simp [List.append_assoc]

/-- Lexing the single-quote escaping of `l` from inside an open single quote
appends exactly `l` to the current token and leaves the lexer in the word
state with the quoted flag set, past the closing quote. -/
theorem lexAll_sq_quoted (l : List Char) (tail : List Char) (tok : List Char)
    (q : Bool) (acc : List String) :
    lexAll (sqEscapeChars l ++ (qc :: tail)) (LexState.quoteSt qc) tok q acc =
      lexAll tail LexState.word (tok ++ l) true acc := by
  induction l generalizing tok q with
  | nil =>
    rw [List.append_nil]
    rfl
  | cons c cs ih =>
    by_cases hc : c = qc
    · subst hc
      rw [List.append_cons tok qc cs]
      exact ih (tok ++ [qc]) true
    · have hcq : (c == qc) = false := by
        rw [beq_eq_false_iff_ne]
        exact hc
      have hsq : sqEscapeChars (c :: cs) = c :: sqEscapeChars cs := by
        simp [sqEscapeChars, concatMap, hcq]
      rw [hsq, List.cons_append]
      have hqd : (qc == dq) = false := by decide
      simp only [lexAll, hcq, hqd, Bool.false_and, Bool.false_eq_true, if_false]
      rw [ih (tok ++ [c]) true]
      simp [List.append_assoc]

/-- C9: round trip of the command-shell single-quote escaping — for every
string `s`, POSIX shell word-splitting of `single_quote s` recovers exactly
`s` as a single token.  This covers all strings with no single quotes (the
bare and quoted branches) and strings containing single quotes (the doubled
close-quote scheme is undone by the shell's own unescaping rule). -/
theorem single_quote_roundtrip (s : String) :
    split_args (single_quote s) = [s] := by
  obtain ⟨data⟩ := s
  by_cases h0 : String.mk data = ""
  · rw [h0]
    decide
  · have hdne : data ≠ [] := by
      intro hd
      exact h0 (by rw [hd])
    by_cases hsafe : data.all isSafeChar = true
    · have hsq : single_quote (String.mk data) = String.mk data := by
        unfold single_quote
        rw [if_neg h0, if_pos hsafe]
      rw [hsq]
      cases hd : data with
      | nil => exact absurd hd hdne
      | cons c rest =>
        subst hd
        rw [List.all_cons, Bool.and_eq_true] at hsafe
        obtain ⟨hc, hrest⟩ := hsafe
        have hws := isSafeChar_not_ws hc
        have hqc := isSafeChar_ne_qc hc
        have hdq := isSafeChar_ne_dq hc
        have hesc := isSafeChar_ne_esc hc
        have hlex : lexAll (c :: rest) LexState.ws [] false [] =
            ([String.mk (c :: rest)], "") := by
          simp only [lexAll, hws, hqc, hdq, hesc, Bool.or_self,
            Bool.false_eq_true, if_false, List.nil_append]
          rw [lexAll_word_safe rest [c] false [] hrest (Or.inl (by simp))]
          simp
        simp only [split_args]
        rw [hlex]
        simp
    · have hsq : single_quote (String.mk data) =
          String.mk ([qc] ++ sqEscapeChars data ++ [qc]) := by
        unfold single_quote
        rw [if_neg h0, if_neg (by simpa using hsafe)]
      rw [hsq]
      have hstep : lexAll ([qc] ++ sqEscapeChars data ++ [qc]) LexState.ws []
          false [] =
          lexAll (sqEscapeChars data ++ (qc :: [])) (LexState.quoteSt qc) []
            false [] := by
        rw [show ([qc] ++ sqEscapeChars data ++ [qc] : List Char) =
          qc :: (sqEscapeChars data ++ (qc :: [])) by simp]
        rfl
      have hlex : lexAll ([qc] ++ sqEscapeChars data ++ [qc]) LexState.ws []
          false [] = ([String.mk data], "") := by
        rw [hstep, lexAll_sq_quoted data [] [] false []]
        simp [lexAll]
      simp only [split_args]
      rw [hlex]
      simp
